import Mathlib

/-!
Shallow embedding of `src/bitarray.rs` (struct `BitArray` and its
operations).  Machine integers are modelled as `Nat` with explicit
`% 2^64` where a left shift may overflow the 64-bit word.  Rust's
checked arithmetic (debug-mode panics on shift amounts ≥ 64 and on
subtraction underflow) is modelled by `Option`: `none` is a panic.
-/

/-- The struct `BitArray` from `src/bitarray.rs`: a 64-bit storage word
`array`, two margin counts and the anchor flag `left_align`.  Fields are
`Nat`s standing for `u64` values. -/
structure BitArray where
  array : Nat
  left_margin : Nat
  right_margin : Nat
  left_align : Bool
deriving DecidableEq, Repr

/-- Constant `!0u64`, the all-ones 64-bit word. -/
def ones64 : Nat := 2 ^ 64 - 1

/-- Checked `u64` right shift: panics (`none`) when the shift amount is ≥ 64. -/
def checkedShr (x n : Nat) : Option Nat :=
  if n < 64 then some (x >>> n) else none

/-- Checked `u64` left shift: panics (`none`) when the shift amount is ≥ 64,
otherwise keeps the low 64 bits. -/
def checkedShl (x n : Nat) : Option Nat :=
  if n < 64 then some ((x <<< n) % 2 ^ 64) else none

/-- Checked `u64` subtraction: panics (`none`) on underflow. -/
def checkedSub (a b : Nat) : Option Nat :=
  if b ≤ a then some (a - b) else none

/-- Checked `u64` addition: panics (`none`) on overflow past `2^64`. -/
def checkedAdd (a b : Nat) : Option Nat :=
  if a + b < 2 ^ 64 then some (a + b) else none

/-- The structural invariant stated by the spec:
`left_margin + right_margin ≤ 64`. -/
def BitArray.valid (ba : BitArray) : Prop :=
  ba.left_margin + ba.right_margin ≤ 64

instance (ba : BitArray) : Decidable ba.valid := by
  unfold BitArray.valid; infer_instance

/-- Method `BitArray::length`: `64u64 - (self.left_margin + self.right_margin)`. -/
def BitArray.length (ba : BitArray) : Option Nat :=
  (checkedAdd ba.left_margin ba.right_margin).bind fun s =>
  checkedSub 64 s

/-- Conversion `impl From<BitArray> for u64`:
`(ba.array & (!0u64 >> ba.left_margin)) >> ba.right_margin`. -/
def u64_from (ba : BitArray) : Option Nat :=
  (checkedShr ones64 ba.left_margin).bind fun m =>
  checkedShr (ba.array &&& m) ba.right_margin

/-- Method `BitArray::mask`: `(!0u64 >> self.left_margin) & (!0u64 << self.right_margin)`. -/
def BitArray.mask (ba : BitArray) : Option Nat :=
  (checkedShr ones64 ba.left_margin).bind fun a =>
  (checkedShl ones64 ba.right_margin).bind fun b =>
  some (a &&& b)

/-- Method `BitArray::aligned_to(self, bits)`.  Branches on `bits.left_align`;
shifts `self.array` flush to the anchor side and re-inserts `bits`'s
margin there; the non-anchor margin becomes
`64 - max(self.length(), bits.length())`. -/
def BitArray.aligned_to (self bits : BitArray) : Option BitArray :=
  if bits.left_align then
    (checkedShl self.array self.left_margin).bind fun t =>
    (checkedShr t bits.left_margin).bind fun a =>
    self.length.bind fun ls =>
    bits.length.bind fun lb =>
    (checkedSub 64 (max ls lb)).bind fun rm =>
    some ⟨a, bits.left_margin, rm, self.left_align⟩
  else
    (checkedShr self.array self.right_margin).bind fun t =>
    (checkedShl t bits.right_margin).bind fun a =>
    self.length.bind fun ls =>
    bits.length.bind fun lb =>
    (checkedSub 64 (max ls lb)).bind fun lm =>
    some ⟨a, lm, bits.right_margin, self.left_align⟩

/-- Method `BitArray::trim_to(self, new_len)`: no-op when `new_len >= self.length()`,
otherwise keeps the anchor-side margin and recomputes the other one as
`64 - kept_margin - new_len`. -/
def BitArray.trim_to (self : BitArray) (new_len : Nat) : Option BitArray :=
  self.length.bind fun len =>
  if len ≤ new_len then
    some self
  else
    (if self.left_align then some self.left_margin
     else (checkedSub 64 self.right_margin).bind fun t =>
          checkedSub t new_len).bind fun lm =>
    (if ! self.left_align then some self.right_margin
     else (checkedSub 64 self.left_margin).bind fun t =>
          checkedSub t new_len).bind fun rm =>
    some ⟨self.array, lm, rm, self.left_align⟩

/-- Method `BitArray::apply_binary(self, func, bits)`: aligns `bits` onto `self`,
trims `self` to the aligned operand's length, applies `func` to the raw
storages (kept a `u64` by `% 2^64`) and takes pairwise maxima of the
margins. -/
def BitArray.apply_binary (self : BitArray) (func : Nat → Nat → Nat)
    (bits : BitArray) : Option BitArray :=
  (bits.aligned_to self).bind fun bits2 =>
  bits2.length.bind fun len =>
  (self.trim_to len).bind fun self2 =>
  some ⟨func self2.array bits2.array % 2 ^ 64,
        max self2.left_margin bits2.left_margin,
        max self2.right_margin bits2.right_margin,
        self2.left_align⟩

/-- Equality `impl PartialEq for BitArray`: short-circuit conjunction of
`left_align` equality, extracted-value equality and length equality. -/
def BitArray.beq (self other : BitArray) : Option Bool :=
  if self.left_align ≠ other.left_align then some false
  else
    (u64_from self).bind fun x =>
    (u64_from other).bind fun y =>
    if x ≠ y then some false
    else
      self.length.bind fun la =>
      other.length.bind fun lb =>
      some (la == lb)

/-! ## Characterization lemmas for the checked primitives -/

theorem checkedShr_eq_some {x n y : Nat} :
    checkedShr x n = some y ↔ n < 64 ∧ y = x >>> n := by
  unfold checkedShr
  split
  · simp_all [eq_comm]
  · simp_all

theorem checkedShl_eq_some {x n y : Nat} :
    checkedShl x n = some y ↔ n < 64 ∧ y = (x <<< n) % 2 ^ 64 := by
  unfold checkedShl
  split
  · simp_all [eq_comm]
  · simp_all

theorem checkedSub_eq_some {a b c : Nat} :
    checkedSub a b = some c ↔ b ≤ a ∧ c = a - b := by
  unfold checkedSub
  split
  · simp_all [eq_comm]
  · simp_all

theorem checkedAdd_eq_some {a b c : Nat} :
    checkedAdd a b = some c ↔ a + b < 2 ^ 64 ∧ c = a + b := by
  unfold checkedAdd
  split
  · simp_all [eq_comm]
  · simp_all

theorem length_eq_some {w : BitArray} {n : Nat} :
    w.length = some n ↔
      w.left_margin + w.right_margin ≤ 64 ∧
      n = 64 - (w.left_margin + w.right_margin) := by
  unfold BitArray.length
  simp only [Option.bind_eq_some, checkedAdd_eq_some, checkedSub_eq_some]
  constructor
  · rintro ⟨s, ⟨hlt, rfl⟩, hle, rfl⟩
    exact ⟨hle, rfl⟩
  · rintro ⟨hle, rfl⟩
    exact ⟨_, ⟨by omega, rfl⟩, hle, rfl⟩

theorem length_of_valid {w : BitArray} (h : w.valid) :
    w.length = some (64 - (w.left_margin + w.right_margin)) :=
  length_eq_some.mpr ⟨h, rfl⟩

theorem u64_from_eq_some {w : BitArray} {v : Nat} :
    u64_from w = some v ↔
      w.left_margin < 64 ∧ w.right_margin < 64 ∧
      v = (w.array &&& (ones64 >>> w.left_margin)) >>> w.right_margin := by
  unfold u64_from
  simp only [Option.bind_eq_some, checkedShr_eq_some]
  constructor
  · rintro ⟨m, ⟨h1, rfl⟩, h2, rfl⟩
    exact ⟨h1, h2, rfl⟩
  · rintro ⟨h1, h2, rfl⟩
    exact ⟨_, ⟨h1, rfl⟩, h2, rfl⟩

theorem u64_from_of_margins {w : BitArray}
    (hl : w.left_margin < 64) (hr : w.right_margin < 64) :
    u64_from w =
      some ((w.array &&& (ones64 >>> w.left_margin)) >>> w.right_margin) :=
  u64_from_eq_some.mpr ⟨hl, hr, rfl⟩

/-! ## Characterizations of `aligned_to` and `trim_to` -/

theorem aligned_to_eq_some_left {a r w : BitArray} (hal : r.left_align = true) :
    a.aligned_to r = some w ↔
      a.left_margin < 64 ∧ r.left_margin < 64 ∧ a.valid ∧ r.valid ∧
      w = ⟨((a.array <<< a.left_margin) % 2 ^ 64) >>> r.left_margin,
           r.left_margin,
           64 - max (64 - (a.left_margin + a.right_margin))
                    (64 - (r.left_margin + r.right_margin)),
           a.left_align⟩ := by
  unfold BitArray.aligned_to
  rw [if_pos hal]
  simp only [Option.bind_eq_some, checkedShl_eq_some, checkedShr_eq_some,
    length_eq_some, checkedSub_eq_some, Option.some.injEq]
  constructor
  · rintro ⟨t, ⟨h1, rfl⟩, x, ⟨h2, rfl⟩, ls, ⟨hva, rfl⟩, lb, ⟨hvr, rfl⟩, rm,
      ⟨hsub, rfl⟩, rfl⟩
    exact ⟨h1, h2, hva, hvr, rfl⟩
  · rintro ⟨h1, h2, hva, hvr, rfl⟩
    exact ⟨_, ⟨h1, rfl⟩, _, ⟨h2, rfl⟩, _, ⟨hva, rfl⟩, _, ⟨hvr, rfl⟩, _,
      ⟨by omega, rfl⟩, rfl⟩

theorem aligned_to_eq_some_right {a r w : BitArray}
    (hal : r.left_align = false) :
    a.aligned_to r = some w ↔
      a.right_margin < 64 ∧ r.right_margin < 64 ∧ a.valid ∧ r.valid ∧
      w = ⟨((a.array >>> a.right_margin) <<< r.right_margin) % 2 ^ 64,
           64 - max (64 - (a.left_margin + a.right_margin))
                    (64 - (r.left_margin + r.right_margin)),
           r.right_margin,
           a.left_align⟩ := by
  unfold BitArray.aligned_to
  rw [if_neg (by simp [hal])]
  simp only [Option.bind_eq_some, checkedShl_eq_some, checkedShr_eq_some,
    length_eq_some, checkedSub_eq_some, Option.some.injEq]
  constructor
  · rintro ⟨t, ⟨h1, rfl⟩, x, ⟨h2, rfl⟩, ls, ⟨hva, rfl⟩, lb, ⟨hvr, rfl⟩, lm,
      ⟨hsub, rfl⟩, rfl⟩
    exact ⟨h1, h2, hva, hvr, rfl⟩
  · rintro ⟨h1, h2, hva, hvr, rfl⟩
    exact ⟨_, ⟨h1, rfl⟩, _, ⟨h2, rfl⟩, _, ⟨hva, rfl⟩, _, ⟨hvr, rfl⟩, _,
      ⟨by omega, rfl⟩, rfl⟩

theorem trim_to_of_le {w : BitArray} {n : Nat} (hv : w.valid)
    (h : 64 - (w.left_margin + w.right_margin) ≤ n) :
    w.trim_to n = some w := by
  unfold BitArray.trim_to
  rw [length_of_valid hv]
  simp only [Option.some_bind]
  rw [if_pos h]

theorem trim_to_lt_left {w : BitArray} {n : Nat} (hv : w.valid)
    (hal : w.left_align = true)
    (h : n < 64 - (w.left_margin + w.right_margin)) :
    w.trim_to n = some ⟨w.array, w.left_margin, 64 - w.left_margin - n, true⟩ := by
  unfold BitArray.trim_to
  rw [length_of_valid hv]
  simp only [Option.some_bind]
  rw [if_neg (by omega), if_pos hal, if_neg (by simp [hal])]
  simp only [Option.some_bind, Option.bind_eq_some]
  refine ⟨64 - w.left_margin - n, ?_, ?_⟩
  · exact ⟨64 - w.left_margin, checkedSub_eq_some.mpr ⟨by omega, rfl⟩,
      checkedSub_eq_some.mpr ⟨by omega, rfl⟩⟩
  · simp [hal]

theorem trim_to_lt_right {w : BitArray} {n : Nat} (hv : w.valid)
    (hal : w.left_align = false)
    (h : n < 64 - (w.left_margin + w.right_margin)) :
    w.trim_to n = some ⟨w.array, 64 - w.right_margin - n, w.right_margin, false⟩ := by
  unfold BitArray.trim_to
  rw [length_of_valid hv]
  simp only [Option.some_bind]
  rw [if_neg (by omega), if_neg (by simp [hal]), if_pos (by simp [hal])]
  simp only [Option.bind_eq_some]
  refine ⟨64 - w.right_margin - n, ?_, ?_⟩
  · exact ⟨64 - w.right_margin, checkedSub_eq_some.mpr ⟨by omega, rfl⟩,
      checkedSub_eq_some.mpr ⟨by omega, rfl⟩⟩
  · simp [hal]

theorem trim_to_eq_some {w w' : BitArray} {n : Nat} :
    w.trim_to n = some w' ↔
      w.valid ∧
      ((64 - (w.left_margin + w.right_margin) ≤ n ∧ w' = w) ∨
       (n < 64 - (w.left_margin + w.right_margin) ∧
        w' = ⟨w.array,
              if w.left_align then w.left_margin else 64 - w.right_margin - n,
              if w.left_align then 64 - w.left_margin - n else w.right_margin,
              w.left_align⟩)) := by
  constructor
  · intro h
    unfold BitArray.trim_to at h
    rw [Option.bind_eq_some] at h
    obtain ⟨len, hlen, h⟩ := h
    rw [length_eq_some] at hlen
    obtain ⟨hv, rfl⟩ := hlen
    refine ⟨hv, ?_⟩
    by_cases hc : 64 - (w.left_margin + w.right_margin) ≤ n
    · rw [if_pos hc, Option.some.injEq] at h
      exact Or.inl ⟨hc, h.symm⟩
    · rw [if_neg hc] at h
      refine Or.inr ⟨by omega, ?_⟩
      cases hal : w.left_align
      · rw [if_neg (by simp [hal]), if_pos (by simp [hal])] at h
        simp only [Option.bind_eq_some, checkedSub_eq_some, Option.some_bind,
          Option.some.injEq] at h
        obtain ⟨lm, ⟨t, ⟨ht1, rfl⟩, ht2, rfl⟩, rfl⟩ := h
        simp [hal]
      · rw [if_pos hal, if_neg (by simp [hal])] at h
        simp only [Option.some_bind, Option.bind_eq_some, checkedSub_eq_some,
          Option.some.injEq] at h
        obtain ⟨rm, ⟨t, ⟨ht1, rfl⟩, ht2, rfl⟩, rfl⟩ := h
        simp [hal]
  · rintro ⟨hv, h | h⟩
    · rw [h.2]
      exact trim_to_of_le hv h.1
    · obtain ⟨hn, rfl⟩ := h
      cases hal : w.left_align
      · rw [trim_to_lt_right hv hal hn]
        simp [hal]
      · rw [trim_to_lt_left hv hal hn]
        simp [hal]

/-- Lemma: `apply_binary` never returns a structurally invalid window: whenever it
returns at all, the result's margins sum to at most 64. -/
theorem apply_binary_valid {s o w : BitArray} {f : Nat → Nat → Nat}
    (h : s.apply_binary f o = some w) : w.valid := by
  unfold BitArray.apply_binary at h
  simp only [Option.bind_eq_some, Option.some.injEq] at h
  obtain ⟨b2, hb2, len, hlen, s2, hs2, heq⟩ := h
  rw [length_eq_some] at hlen
  obtain ⟨hvb2, rfl⟩ := hlen
  rw [trim_to_eq_some] at hs2
  obtain ⟨hvs, hcase⟩ := hs2
  cases hal : s.left_align
  · rw [aligned_to_eq_some_right hal] at hb2
    obtain ⟨h1, h2, hvo, _, rfl⟩ := hb2
    simp only at hvb2 hcase ⊢
    rcases hcase with ⟨hge, rfl⟩ | ⟨hlt, rfl⟩
    · subst heq
      simp only [BitArray.valid] at hvs hvo hvb2 ⊢
      simp only [hal, if_false, Bool.false_eq_true] at *
      omega
    · subst heq
      simp only [BitArray.valid] at hvs hvo hvb2 ⊢
      simp only [hal, if_false, Bool.false_eq_true] at *
      omega
  · rw [aligned_to_eq_some_left hal] at hb2
    obtain ⟨h1, h2, hvo, _, rfl⟩ := hb2
    simp only at hvb2 hcase ⊢
    rcases hcase with ⟨hge, rfl⟩ | ⟨hlt, rfl⟩
    · subst heq
      simp only [BitArray.valid] at hvs hvo hvb2 ⊢
      simp only [hal, if_true] at *
      omega
    · subst heq
      simp only [BitArray.valid] at hvs hvo hvb2 ⊢
      simp only [hal, if_true] at *
      omega

/-! ## Arithmetic helper lemmas -/

theorem ones64_shr {k : Nat} (hk : k ≤ 64) : ones64 >>> k = 2 ^ (64 - k) - 1 := by
  apply Nat.eq_of_testBit_eq
  intro i
  simp only [ones64, Nat.testBit_shiftRight, Nat.testBit_two_pow_sub_one]
  rw [decide_eq_decide]
  omega

theorem shr_mod (x r n : Nat) : (x % 2 ^ (r + n)) >>> r = (x >>> r) % 2 ^ n := by
  rw [Nat.shiftRight_eq_div_pow, Nat.shiftRight_eq_div_pow, pow_add,
    Nat.mod_mul_right_div_self]

theorem u64_from_val {w : BitArray} {v : Nat} (h : u64_from w = some v) :
    w.left_margin < 64 ∧ w.right_margin < 64 ∧
      v = (w.array % 2 ^ (64 - w.left_margin)) >>> w.right_margin := by
  rw [u64_from_eq_some] at h
  obtain ⟨hl, hr, rfl⟩ := h
  refine ⟨hl, hr, ?_⟩
  rw [ones64_shr (by omega), Nat.and_pow_two_sub_one_eq_mod]

/-! ## Claim C1 -/

/-- Claim C1, counterexample.  On the repository's own `aligned_to` test
vectors (`b1` with margins 54/6, so length 4, and `b2` with margins 57/2,
so length 5), `b1.aligned_to(b2)` succeeds and returns margins 57/59, whose
length is not `max 4 5` (the margins sum past 64 so `length()` underflows);
moreover at the boundary margin 64 `aligned_to` panics on the shift. -/
theorem C1_counterexample :
    BitArray.valid ⟨960, 54, 6, false⟩ ∧
    BitArray.valid ⟨124, 57, 2, true⟩ ∧
    BitArray.length ⟨960, 54, 6, false⟩ = some 4 ∧
    BitArray.length ⟨124, 57, 2, true⟩ = some 5 ∧
    BitArray.aligned_to ⟨960, 54, 6, false⟩ ⟨124, 57, 2, true⟩ =
      some ⟨120, 57, 59, false⟩ ∧
    BitArray.length ⟨120, 57, 59, false⟩ ≠ some (max 4 5) ∧
    BitArray.valid ⟨0, 64, 0, false⟩ ∧
    BitArray.valid ⟨0, 0, 0, true⟩ ∧
    BitArray.aligned_to ⟨0, 64, 0, false⟩ ⟨0, 0, 0, true⟩ = none := by
  decide

/-- Claim C1, amended: whenever `a.aligned_to r` returns a window `w`, the
margin of `w` on `r`'s anchor side equals `r`'s margin on that side, `w`'s
margin on the other side equals `64 - max (a.length()) (r.length())` (so
`w.length()` is `max` minus `r`'s anchor-side margin, not `max` itself),
and `w.align_left` equals `a.align_left`. -/
theorem C1_aligned_to_margins (a r w : BitArray)
    (h : a.aligned_to r = some w) :
    w.left_align = a.left_align ∧
    (r.left_align = true →
      w.left_margin = r.left_margin ∧
      w.right_margin =
        64 - max (64 - (a.left_margin + a.right_margin))
                 (64 - (r.left_margin + r.right_margin))) ∧
    (r.left_align = false →
      w.right_margin = r.right_margin ∧
      w.left_margin =
        64 - max (64 - (a.left_margin + a.right_margin))
                 (64 - (r.left_margin + r.right_margin))) := by
  cases hal : r.left_align
  · rw [aligned_to_eq_some_right hal] at h
    obtain ⟨h1, h2, hva, hvr, rfl⟩ := h
    simp [hal]
  · rw [aligned_to_eq_some_left hal] at h
    obtain ⟨h1, h2, hva, hvr, rfl⟩ := h
    simp [hal]

/-- Claim C1, witness: the amended theorem applied to the repository's
`aligned_to` test vectors. -/
theorem C1_witness :
    (⟨120, 57, 59, false⟩ : BitArray).left_align =
      (⟨960, 54, 6, false⟩ : BitArray).left_align ∧
    ((⟨124, 57, 2, true⟩ : BitArray).left_align = true →
      (⟨120, 57, 59, false⟩ : BitArray).left_margin =
        (⟨124, 57, 2, true⟩ : BitArray).left_margin ∧
      (⟨120, 57, 59, false⟩ : BitArray).right_margin =
        64 - max (64 - (54 + 6)) (64 - (57 + 2))) ∧
    ((⟨124, 57, 2, true⟩ : BitArray).left_align = false →
      (⟨120, 57, 59, false⟩ : BitArray).right_margin =
        (⟨124, 57, 2, true⟩ : BitArray).right_margin ∧
      (⟨120, 57, 59, false⟩ : BitArray).left_margin =
        64 - max (64 - (54 + 6)) (64 - (57 + 2))) :=
  C1_aligned_to_margins ⟨960, 54, 6, false⟩ ⟨124, 57, 2, true⟩
    ⟨120, 57, 59, false⟩ (by decide)

/-! ## Claim C2 -/

/-- Claim C2, counterexample: on the repository's own test vectors, both
inputs satisfy `left_margin + right_margin ≤ 64` yet `aligned_to` returns
a window with margins 57 and 59, which sum to 116 > 64 — an operation on
valid windows does produce an invalid instance. -/
theorem C2_counterexample :
    BitArray.valid ⟨960, 54, 6, false⟩ ∧
    BitArray.valid ⟨124, 57, 2, true⟩ ∧
    BitArray.aligned_to ⟨960, 54, 6, false⟩ ⟨124, 57, 2, true⟩ =
      some ⟨120, 57, 59, false⟩ ∧
    ¬ BitArray.valid ⟨120, 57, 59, false⟩ := by
  decide

/-- Claim C2, amended: `trim_to` always maps a valid window to a valid
window; `apply_binary` never returns an invalid window (when the invariant
would break it panics instead); but `aligned_to` does not preserve the
invariant in general — its result is valid exactly when the reference's
anchor-side margin is at most `max (a.length()) (r.length())`. -/
theorem C2_invariant_preservation :
    (∀ (w : BitArray) (n : Nat), w.valid →
      ∃ w', w.trim_to n = some w' ∧ w'.valid) ∧
    (∀ (s : BitArray) (f : Nat → Nat → Nat) (o w : BitArray),
      s.apply_binary f o = some w → w.valid) ∧
    (∀ a r w : BitArray, a.aligned_to r = some w →
      (w.valid ↔
        (if r.left_align then r.left_margin else r.right_margin) ≤
          max (64 - (a.left_margin + a.right_margin))
              (64 - (r.left_margin + r.right_margin)))) := by
  refine ⟨?_, ?_, ?_⟩
  · intro w n hv
    by_cases hc : 64 - (w.left_margin + w.right_margin) ≤ n
    · exact ⟨w, trim_to_of_le hv hc, hv⟩
    · cases hal : w.left_align
      · refine ⟨_, trim_to_lt_right hv hal (by omega), ?_⟩
        simp only [BitArray.valid] at hv ⊢
        omega
      · refine ⟨_, trim_to_lt_left hv hal (by omega), ?_⟩
        simp only [BitArray.valid] at hv ⊢
        omega
  · intro s f o w h
    exact apply_binary_valid h
  · intro a r w h
    cases hal : r.left_align
    · rw [aligned_to_eq_some_right hal] at h
      obtain ⟨h1, h2, hva, hvr, rfl⟩ := h
      simp only [BitArray.valid] at hva hvr ⊢
      simp only [hal, if_false, Bool.false_eq_true]
      omega
    · rw [aligned_to_eq_some_left hal] at h
      obtain ⟨h1, h2, hva, hvr, rfl⟩ := h
      simp only [BitArray.valid] at hva hvr ⊢
      simp only [hal, if_true]
      omega

/-- Claim C2, witness: the `apply_binary` part of the amended theorem
applied to the repository's XOR test, certifying the result is valid. -/
theorem C2_witness : BitArray.valid ⟨6, 60, 0, false⟩ :=
  C2_invariant_preservation.2.1 ⟨3, 60, 0, false⟩ (fun x y => Nat.xor x y)
    ⟨20, 58, 2, true⟩ ⟨6, 60, 0, false⟩ (by decide)

theorem trim_to_total (w : BitArray) (n : Nat) (hv : w.valid) :
    ∃ w', w.trim_to n = some w' := by
  by_cases hc : 64 - (w.left_margin + w.right_margin) ≤ n
  · exact ⟨w, trim_to_of_le hv hc⟩
  · cases hal : w.left_align
    · exact ⟨_, trim_to_lt_right hv hal (by omega)⟩
    · exact ⟨_, trim_to_lt_left hv hal (by omega)⟩

/-! ## Claim C3 -/

/-- Claim C3, counterexample: at the boundary case `left_margin = 64` the
conversion to `u64` and `mask` panic on the 64-bit shift (modelled as
`none`), and `apply_binary` panics even on a pair of valid windows with
all margins below 64 (the aligned intermediate is invalid, so taking its
length underflows). -/
theorem C3_counterexample :
    BitArray.valid ⟨0, 64, 0, false⟩ ∧
    u64_from ⟨0, 64, 0, false⟩ = none ∧
    BitArray.mask ⟨0, 64, 0, false⟩ = none ∧
    BitArray.aligned_to ⟨0, 64, 0, false⟩ ⟨0, 0, 0, true⟩ = none ∧
    BitArray.valid ⟨124, 57, 2, true⟩ ∧
    BitArray.valid ⟨960, 54, 6, false⟩ ∧
    BitArray.apply_binary ⟨124, 57, 2, true⟩ (fun x y => Nat.xor x y)
      ⟨960, 54, 6, false⟩ = none := by
  decide

/-- Claim C3, amended: `length` and `trim_to` are total for every valid
window; `mask`, the `u64` conversion and `aligned_to` are total once every
margin is strictly below 64 (margin 64 shifts panic); `apply_binary`
additionally needs `self`'s anchor-side margin to be at most
`max (self.length()) (other.length())`, otherwise the length of the
aligned intermediate underflows. -/
theorem C3_totality :
    (∀ w : BitArray, w.valid → w.length.isSome) ∧
    (∀ (w : BitArray) (n : Nat), w.valid → (w.trim_to n).isSome) ∧
    (∀ w : BitArray, w.left_margin < 64 → w.right_margin < 64 →
      w.mask.isSome ∧ (u64_from w).isSome) ∧
    (∀ a r : BitArray, a.valid → r.valid →
      a.left_margin < 64 → a.right_margin < 64 →
      r.left_margin < 64 → r.right_margin < 64 →
      (a.aligned_to r).isSome) ∧
    (∀ (s : BitArray) (f : Nat → Nat → Nat) (o : BitArray),
      s.valid → o.valid →
      s.left_margin < 64 → s.right_margin < 64 →
      o.left_margin < 64 → o.right_margin < 64 →
      (if s.left_align then s.left_margin else s.right_margin) ≤
        max (64 - (o.left_margin + o.right_margin))
            (64 - (s.left_margin + s.right_margin)) →
      (s.apply_binary f o).isSome) := by
  refine ⟨?_, ?_, ?_, ?_, ?_⟩
  · intro w hv
    rw [length_of_valid hv]
    rfl
  · intro w n hv
    obtain ⟨w', hw'⟩ := trim_to_total w n hv
    rw [hw']
    rfl
  · intro w hl hr
    constructor
    · simp [BitArray.mask, checkedShr, checkedShl, hl, hr]
    · simp [u64_from, checkedShr, hl, hr]
  · intro a r hva hvr hal har hrl hrr
    cases hrla : r.left_align
    · rw [(aligned_to_eq_some_right hrla).mpr ⟨har, hrr, hva, hvr, rfl⟩]
      rfl
    · rw [(aligned_to_eq_some_left hrla).mpr ⟨hal, hrl, hva, hvr, rfl⟩]
      rfl
  · intro s f o hvs hvo hsl hsr hol hor hcond
    unfold BitArray.apply_binary
    cases hal : s.left_align
    · rw [if_neg (by simp [hal])] at hcond
      have hb2 := (aligned_to_eq_some_right (a := o) (r := s) hal).mpr
        ⟨hor, hsr, hvo, hvs, rfl⟩
      rw [hb2, Option.some_bind]
      have hvB : BitArray.valid
          ⟨((o.array >>> o.right_margin) <<< s.right_margin) % 2 ^ 64,
           64 - max (64 - (o.left_margin + o.right_margin))
                    (64 - (s.left_margin + s.right_margin)),
           s.right_margin, o.left_align⟩ := by
        simp only [BitArray.valid]
        omega
      rw [length_of_valid hvB, Option.some_bind]
      obtain ⟨s2, hs2⟩ := trim_to_total s _ hvs
      rw [hs2, Option.some_bind]
      rfl
    · rw [if_pos (by simp [hal])] at hcond
      have hb2 := (aligned_to_eq_some_left (a := o) (r := s) hal).mpr
        ⟨hol, hsl, hvo, hvs, rfl⟩
      rw [hb2, Option.some_bind]
      have hvB : BitArray.valid
          ⟨((o.array <<< o.left_margin) % 2 ^ 64) >>> s.left_margin,
           s.left_margin,
           64 - max (64 - (o.left_margin + o.right_margin))
                    (64 - (s.left_margin + s.right_margin)),
           o.left_align⟩ := by
        simp only [BitArray.valid]
        omega
      rw [length_of_valid hvB, Option.some_bind]
      obtain ⟨s2, hs2⟩ := trim_to_total s _ hvs
      rw [hs2, Option.some_bind]
      rfl

/-- Claim C3, witness: the `mask` and `u64` conversion parts of the
amended theorem at the repository's `mask` test vector. -/
theorem C3_witness :
    (BitArray.mask ⟨0, 58, 3, false⟩).isSome ∧
    (u64_from ⟨0, 58, 3, false⟩).isSome :=
  C3_totality.2.2.1 ⟨0, 58, 3, false⟩ (by decide) (by decide)

/-! ## Claim C4 -/

/-- Claim C4, counterexample: `apply_binary` does not return a window for
every pair of valid operands — with the repository's test vectors swapped
(`self` = the 57/2 left-anchored window, `other` = the 54/6 right-anchored
one) it panics (`none`), because the aligned intermediate has margins
summing past 64. -/
theorem C4_counterexample :
    BitArray.valid ⟨124, 57, 2, true⟩ ∧
    BitArray.valid ⟨960, 54, 6, false⟩ ∧
    BitArray.apply_binary ⟨124, 57, 2, true⟩ (fun x y => Nat.xor x y)
      ⟨960, 54, 6, false⟩ = none := by
  decide

/-- Claim C4, amended: whenever the alignment of `other` onto `self`, the
length of that intermediate and the trim of `self` all succeed,
`apply_binary` applies `f` to the two transformed raw storages and returns
the window with the pairwise maxima of the transformed operands' margins
and `self`'s anchor; in particular the spec's XOR example holds. -/
theorem C4_apply_binary_pipeline :
    (∀ (s o b2 s2 : BitArray) (f : Nat → Nat → Nat) (len : Nat),
      o.aligned_to s = some b2 →
      b2.length = some len →
      s.trim_to len = some s2 →
      s.apply_binary f o =
        some ⟨f s2.array b2.array % 2 ^ 64,
              max s2.left_margin b2.left_margin,
              max s2.right_margin b2.right_margin,
              s.left_align⟩) ∧
    BitArray.apply_binary ⟨3, 60, 0, false⟩ (fun x y => Nat.xor x y)
      ⟨20, 58, 2, true⟩ = some ⟨Nat.xor 3 (20 >>> 2), 60, 0, false⟩ := by
  constructor
  · intro s o b2 s2 f len h1 h2 h3
    have halign : s2.left_align = s.left_align :=
      ((trim_to_eq_some.mp h3).2.elim
        (fun hc => by rw [hc.2]) (fun hc => by rw [hc.2]))
    unfold BitArray.apply_binary
    rw [h1, Option.some_bind, h2, Option.some_bind, h3, Option.some_bind,
      halign]
  · decide

/-- Claim C4, witness: the pipeline theorem applied to the spec's XOR
example (`self` = 4 bits right-anchored holding 3, `other` = 6 bits
left-anchored holding 20 with right margin 2): the aligned operand is
`⟨5, 60, 0, true⟩` of length 4, trimming `self` to 4 bits is a no-op, and
the result is `3 XOR 5 = 6` with margins the pairwise maxima. -/
theorem C4_witness :
    BitArray.apply_binary ⟨3, 60, 0, false⟩ (fun x y => Nat.xor x y)
      ⟨20, 58, 2, true⟩ =
      some ⟨Nat.xor 3 5 % 2 ^ 64, max 60 60, max 0 0,
            (⟨3, 60, 0, false⟩ : BitArray).left_align⟩ :=
  C4_apply_binary_pipeline.1 ⟨3, 60, 0, false⟩ ⟨20, 58, 2, true⟩
    ⟨5, 60, 0, true⟩ ⟨3, 60, 0, false⟩ (fun x y => Nat.xor x y) 4
    (by decide) (by decide) (by decide)

/-! ## Claim C5 -/

/-- Claim C5: for a valid window, `trim_to` is the identity when `new_len`
is at least the length; otherwise it keeps the anchor-side margin
(`left_margin` when left-anchored, `right_margin` when right-anchored) and
the result's length is exactly `new_len`; and the spec's two concrete
60-bit trims of `0x0ff000000000ff0` extract the expected values. -/
theorem C5_trim_to :
    (∀ (w : BitArray) (n len : Nat),
      w.length = some len → len ≤ n → w.trim_to n = some w) ∧
    (∀ (w : BitArray) (n len : Nat),
      w.length = some len → n < len →
      ∃ w', w.trim_to n = some w' ∧
        (w.left_align = true → w'.left_margin = w.left_margin) ∧
        (w.left_align = false → w'.right_margin = w.right_margin) ∧
        w'.length = some n) ∧
    (BitArray.trim_to ⟨0x0ff000000000ff0, 0, 0, false⟩ 60).bind u64_from =
      some 0xff000000000ff0 ∧
    (BitArray.trim_to ⟨0x0ff000000000ff0, 0, 0, true⟩ 60).bind u64_from =
      some 0x0ff000000000ff := by
  refine ⟨?_, ?_, by decide, by decide⟩
  · intro w n len hlen hle
    obtain ⟨hv, rfl⟩ := length_eq_some.mp hlen
    exact trim_to_of_le hv hle
  · intro w n len hlen hlt
    obtain ⟨hv, rfl⟩ := length_eq_some.mp hlen
    cases hal : w.left_align
    · refine ⟨_, trim_to_lt_right hv hal hlt, ?_, ?_, ?_⟩
      · simp [hal]
      · intro
        rfl
      · rw [length_eq_some]
        simp only
        omega
    · refine ⟨_, trim_to_lt_left hv hal hlt, ?_, ?_, ?_⟩
      · intro
        rfl
      · simp [hal]
      · rw [length_eq_some]
        simp only
        omega

/-- Claim C5, witness: the no-op branch of the theorem at a concrete valid
window of length 59 trimmed to 60. -/
theorem C5_witness : BitArray.trim_to ⟨5, 2, 3, true⟩ 60 = some ⟨5, 2, 3, true⟩ :=
  C5_trim_to.1 ⟨5, 2, 3, true⟩ 60 59 (by decide) (by decide)

/-! ## Claim C6 -/

/-- Claim C6: trimming only discards bits receding away from the anchor.
For a valid window `w` and `new_len` below `w.length()` (with the
resulting margins still below 64 so the extraction shifts are in range),
the trimmed window extracts `to_integer(w) mod 2^new_len` when
right-anchored and `to_integer(w) >> (length - new_len)` when
left-anchored. -/
theorem C6_trim_preserves_anchored_bits :
    ∀ (w : BitArray) (n len u : Nat),
      w.length = some len → n < len → u64_from w = some u →
      (w.left_align = false → 0 < w.right_margin + n →
        (w.trim_to n).bind u64_from = some (u % 2 ^ n)) ∧
      (w.left_align = true → 0 < w.left_margin + n →
        (w.trim_to n).bind u64_from = some (u >>> (len - n))) := by
  intro w n len u hlen hlt hu
  obtain ⟨hv, rfl⟩ := length_eq_some.mp hlen
  obtain ⟨hl, hr, rfl⟩ := u64_from_val hu
  constructor
  · intro hal hpos
    rw [trim_to_lt_right hv hal hlt, Option.some_bind]
    have hres := u64_from_of_margins
      (w := ⟨w.array, 64 - w.right_margin - n, w.right_margin, false⟩)
      (show 64 - w.right_margin - n < 64 by omega) hr
    rw [hres, Option.some.injEq]
    show (w.array &&& (ones64 >>> (64 - w.right_margin - n))) >>>
        w.right_margin = _
    rw [ones64_shr (by omega)]
    have he : 64 - (64 - w.right_margin - n) = w.right_margin + n := by
      omega
    rw [he, Nat.and_pow_two_sub_one_eq_mod,
      ← Nat.mod_mod_of_dvd w.array
        (pow_dvd_pow 2 (show w.right_margin + n ≤ 64 - w.left_margin by
          omega)),
      shr_mod]
  · intro hal hpos
    rw [trim_to_lt_left hv hal hlt, Option.some_bind]
    have hres := u64_from_of_margins
      (w := ⟨w.array, w.left_margin, 64 - w.left_margin - n, true⟩)
      hl (show 64 - w.left_margin - n < 64 by omega)
    rw [hres, Option.some.injEq]
    show (w.array &&& (ones64 >>> w.left_margin)) >>>
        (64 - w.left_margin - n) = _
    rw [ones64_shr (by omega), Nat.and_pow_two_sub_one_eq_mod,
      ← Nat.shiftRight_add]
    have he : w.right_margin + (64 - (w.left_margin + w.right_margin) - n) =
        64 - w.left_margin - n := by
      omega
    rw [he]

/-- Claim C6, witness: the right-anchored branch at the repository's
`trim_to` test vector, a full 64-bit window trimmed to 60 bits. -/
theorem C6_witness :
    (BitArray.trim_to ⟨0x0ff000000000ff0, 0, 0, false⟩ 60).bind u64_from =
      some (0x0ff000000000ff0 % 2 ^ 60) :=
  (C6_trim_preserves_anchored_bits ⟨0x0ff000000000ff0, 0, 0, false⟩ 60 64
    0x0ff000000000ff0 (by decide) (by decide) (by decide)).1 rfl
    (by decide)

/-! ## Claim C7 -/

/-- Claim C7: for margins strictly below 64 the `u64` conversion returns
`(storage & (all-ones >> left_margin)) >> right_margin`, and the concrete
test vector `0x0000f0000000ff00` with margins 24/4 extracts `0xff0`. -/
theorem C7_to_integer :
    (∀ w : BitArray, w.valid → w.left_margin < 64 → w.right_margin < 64 →
      u64_from w =
        some ((w.array &&& (ones64 >>> w.left_margin)) >>> w.right_margin)) ∧
    u64_from ⟨0x0000f0000000ff00, 24, 4, false⟩ = some 0xff0 := by
  refine ⟨?_, by decide⟩
  intro w hv hl hr
  exact u64_from_of_margins hl hr

/-- Claim C7, witness: the formula part of the theorem applied to the
repository's conversion test vector. -/
theorem C7_witness :
    u64_from ⟨0x0000f0000000ff00, 24, 4, false⟩ =
      some ((0x0000f0000000ff00 &&& (ones64 >>> 24)) >>> 4) :=
  C7_to_integer.1 ⟨0x0000f0000000ff00, 24, 4, false⟩ (by decide) (by decide)
    (by decide)

/-! ## Claim C9 -/

/-- Claim C9: the extracted value always fits in `length()` bits — if
`length` and the `u64` conversion both return, the value is below
`2 ^ length()`, whatever raw bits sit outside the window. -/
theorem C9_value_bound :
    ∀ (w : BitArray) (len v : Nat),
      w.length = some len → u64_from w = some v → v < 2 ^ len := by
  intro w len v hlen hv
  obtain ⟨hval, rfl⟩ := length_eq_some.mp hlen
  obtain ⟨hl, hr, rfl⟩ := u64_from_val hv
  rw [Nat.shiftRight_eq_div_pow]
  have hpow : (2 : Nat) ^ (64 - (w.left_margin + w.right_margin)) *
      2 ^ w.right_margin = 2 ^ (64 - w.left_margin) := by
    rw [← pow_add]
    congr 1
    omega
  rw [Nat.div_lt_iff_lt_mul (Nat.pos_pow_of_pos _ (by omega)), hpow]
  exact Nat.mod_lt _ (Nat.pos_pow_of_pos _ (by omega))

/-- Claim C9, witness: the bound at the repository's conversion test
vector, whose window is 36 bits long. -/
theorem C9_witness : 0xff0 < 2 ^ 36 :=
  C9_value_bound ⟨0x0000f0000000ff00, 24, 4, false⟩ 36 0xff0 (by decide)
    (by decide)

/-! ## Claim C10 -/

/-- Claim C10: `trim_to` never touches the raw storage word or the anchor
flag — whenever it returns a window, that window has the same `array` and
`left_align` as the input (the discarded bits are not zeroed), and on any
valid input it does return a window. -/
theorem C10_trim_frame :
    (∀ (w : BitArray) (n : Nat) (w' : BitArray),
      w.trim_to n = some w' →
      w'.array = w.array ∧ w'.left_align = w.left_align) ∧
    (∀ (w : BitArray) (n : Nat), w.valid → (w.trim_to n).isSome) := by
  constructor
  · intro w n w' h
    obtain ⟨hv, hcase⟩ := trim_to_eq_some.mp h
    rcases hcase with ⟨_, rfl⟩ | ⟨_, rfl⟩
    · exact ⟨rfl, rfl⟩
    · exact ⟨rfl, rfl⟩
  · intro w n hv
    obtain ⟨w', hw'⟩ := trim_to_total w n hv
    rw [hw']
    rfl

/-- Claim C10, witness: the frame property at a concrete trim that does
change the margins (margins 3/4 trimmed to length 2 become 3/59). -/
theorem C10_witness :
    (⟨7, 3, 59, true⟩ : BitArray).array = (⟨7, 3, 4, true⟩ : BitArray).array ∧
    (⟨7, 3, 59, true⟩ : BitArray).left_align =
      (⟨7, 3, 4, true⟩ : BitArray).left_align :=
  C10_trim_frame.1 ⟨7, 3, 4, true⟩ 2 ⟨7, 3, 59, true⟩ (by decide)

/-! ## Helpers for the equality claim -/

theorem mask_eq_some {w : BitArray} {m : Nat} :
    w.mask = some m ↔
      w.left_margin < 64 ∧ w.right_margin < 64 ∧
      m = (ones64 >>> w.left_margin) &&&
          ((ones64 <<< w.right_margin) % 2 ^ 64) := by
  unfold BitArray.mask
  simp only [Option.bind_eq_some, checkedShr_eq_some, checkedShl_eq_some,
    Option.some.injEq]
  constructor
  · rintro ⟨x, ⟨h1, rfl⟩, y, ⟨h2, rfl⟩, rfl⟩
    exact ⟨h1, h2, rfl⟩
  · rintro ⟨h1, h2, rfl⟩
    exact ⟨_, ⟨h1, rfl⟩, _, ⟨h2, rfl⟩, rfl⟩

theorem beq_eq_true_iff {a b : BitArray} :
    a.beq b = some true ↔
      a.left_align = b.left_align ∧
      (∃ v, u64_from a = some v ∧ u64_from b = some v) ∧
      (∃ n, a.length = some n ∧ b.length = some n) := by
  unfold BitArray.beq
  by_cases hA : a.left_align = b.left_align
  · rw [if_neg (by simp [hA])]
    constructor
    · intro h
      rw [Option.bind_eq_some] at h
      obtain ⟨x, hx, h⟩ := h
      rw [Option.bind_eq_some] at h
      obtain ⟨y, hy, h⟩ := h
      by_cases hxy : x = y
      · subst hxy
        rw [if_neg (by simp)] at h
        rw [Option.bind_eq_some] at h
        obtain ⟨la, hla, h⟩ := h
        rw [Option.bind_eq_some] at h
        obtain ⟨lb, hlb, h⟩ := h
        simp only [Option.some.injEq, beq_iff_eq] at h
        exact ⟨hA, ⟨x, hx, hy⟩, ⟨la, hla, h ▸ hlb⟩⟩
      · rw [if_pos (by simpa using hxy)] at h
        simp at h
    · rintro ⟨_, ⟨v, hva, hvb⟩, ⟨n, hna, hnb⟩⟩
      rw [hva, Option.some_bind, hvb, Option.some_bind, if_neg (by simp),
        hna, Option.some_bind, hnb, Option.some_bind]
      simp
  · rw [if_pos (by simpa using hA)]
    constructor
    · intro h
      simp at h
    · rintro ⟨h, _⟩
      exact absurd h hA

theorem from_val_eq_of_mask_agree {s1 s2 l r : Nat}
    (hl : l < 64) (hr : r < 64)
    (h : s1 &&& ((ones64 >>> l) &&& ((ones64 <<< r) % 2 ^ 64)) =
         s2 &&& ((ones64 >>> l) &&& ((ones64 <<< r) % 2 ^ 64))) :
    (s1 &&& (ones64 >>> l)) >>> r = (s2 &&& (ones64 >>> l)) >>> r := by
  apply Nat.eq_of_testBit_eq
  intro i
  have hb := congrArg (fun x => Nat.testBit x (r + i)) h
  simp only [ones64, Nat.testBit_and, Nat.testBit_shiftRight,
    Nat.testBit_shiftLeft, Nat.testBit_mod_two_pow,
    Nat.testBit_two_pow_sub_one] at hb ⊢
  by_cases hi : l + (r + i) < 64
  · simp only [hi, show r + i < 64 by omega, show r ≤ r + i by omega,
      show r + i - r = i by omega, show i < 64 by omega] at hb ⊢
    simpa using hb
  · simp [hi]

/-! ## Claim C8 -/

/-- Claim C8: two windows compare equal exactly when they have the same
anchor flag, some common extracted value and some common length; and raw
bits outside the mask never influence equality — two valid windows with
identical margins and anchor whose storages agree under `mask()` compare
equal even if the raw storages differ elsewhere. -/
theorem C8_equality :
    (∀ a b : BitArray, a.beq b = some true ↔
      (a.left_align = b.left_align ∧
       (∃ v, u64_from a = some v ∧ u64_from b = some v) ∧
       (∃ n, a.length = some n ∧ b.length = some n))) ∧
    (∀ (s1 s2 l r : Nat) (al : Bool) (m : Nat),
      l + r ≤ 64 →
      BitArray.mask ⟨s1, l, r, al⟩ = some m →
      s1 &&& m = s2 &&& m →
      BitArray.beq ⟨s1, l, r, al⟩ ⟨s2, l, r, al⟩ = some true) := by
  constructor
  · intro a b
    exact beq_eq_true_iff
  · intro s1 s2 l r al m hv hm heq
    obtain ⟨hl, hr, rfl⟩ := mask_eq_some.mp hm
    refine beq_eq_true_iff.mpr
      ⟨rfl, ⟨(s1 &&& (ones64 >>> l)) >>> r,
        u64_from_of_margins hl hr, ?_⟩,
       ⟨64 - (l + r), length_of_valid hv, length_of_valid hv⟩⟩
    rw [u64_from_of_margins (w := ⟨s2, l, r, al⟩) hl hr,
      Option.some.injEq]
    exact (from_val_eq_of_mask_agree hl hr heq).symm

/-- Claim C8, witness: the mask-agreement part applied to two windows of
margins 60/0 whose storages 3 and 0xff3 agree on the low four bits. -/
theorem C8_witness :
    BitArray.beq ⟨3, 60, 0, false⟩ ⟨0xff3, 60, 0, false⟩ = some true :=
  C8_equality.2 3 0xff3 60 0 false 15 (by decide) (by decide) (by decide)
